import Mathlib

/-!
# Verification of the embeddage core (Ranker and Projector)

Shallow embedding of `src/builder/rankings.py` (`compute_rankings`) and of the
deterministic stabilization part of `src/builder/projection.py` (`project_to_3d`),
with theorems settling the frozen claims about them.

Modelling conventions:
* numpy float32 arithmetic is modelled exactly over `ℚ` (ranker) and `ℝ` (projector);
* `np.argpartition(scores, -(k+1))[-(k+1):]` returns the `k+1` largest entries in an
  unspecified internal order; the model realizes its contract deterministically as the
  last `k+1` positions of a stable ascending argsort (ties broken by index);
* `np.argsort(scores)` is modelled as a stable ascending sort (ties by original index);
  the code then reverses it (`[::-1]`), which the model reproduces with `List.reverse`;
* numpy fancy indexing errors (`IndexError` on `embeddings[secret_id]` when
  `secret_id ∉ [-V, V)`, `ValueError` from `argpartition` when `k+1 > V`) are modelled
  with `Except`; numpy's negative-index wrapping is modelled by resolving a negative
  secret index to `V + secret_id`;
* the SVD values of `project_to_3d` (lines 34-47) are not reproduced; the
  stabilization pipeline (lines 51-77) is embedded as a function of the post-SVD
  coordinate block, universally quantified in the theorems, so every SVD output is
  covered. The block's column count `m = min(k, D, 3)` (from `U[:, :3] * S[:3]`,
  line 47) is kept explicit, because for `m < 3` the anchor-flip loop at line 67
  reads `anchor[j]` out of bounds and the call raises `IndexError`.
-/

namespace Embeddage

/-- Dot product of two rows, `row @ vec` for aligned lists
    (model of the numpy matrix-vector product row). -/
def dot (u v : List ℚ) : ℚ := (List.zipWith (· * ·) u v).sum

/-- Comparison key used to model numpy's stable ascending argsort over `scores`:
    index `i` precedes index `j` when its score is smaller, ties broken by index. -/
def keyLe (scores : List ℚ) (i j : ℕ) : Prop :=
  scores.getD i 0 < scores.getD j 0 ∨ (scores.getD i 0 = scores.getD j 0 ∧ i ≤ j)

instance (scores : List ℚ) : DecidableRel (keyLe scores) := fun i j =>
  inferInstanceAs (Decidable (_ ∨ _))

instance (scores : List ℚ) : IsTotal ℕ (keyLe scores) := by
  constructor
  intro i j
  rcases lt_trichotomy (scores.getD i 0) (scores.getD j 0) with h | h | h
  · exact Or.inl (Or.inl h)
  · rcases Nat.le_total i j with hij | hij
    · exact Or.inl (Or.inr ⟨h, hij⟩)
    · exact Or.inr (Or.inr ⟨h.symm, hij⟩)
  · exact Or.inr (Or.inl h)

instance (scores : List ℚ) : IsTrans ℕ (keyLe scores) := by
  constructor
  intro a b c hab hbc
  rcases hab with h1 | ⟨h1, h1'⟩ <;> rcases hbc with h2 | ⟨h2, h2'⟩
  · exact Or.inl (h1.trans h2)
  · exact Or.inl (h2 ▸ h1)
  · exact Or.inl (h1 ▸ h2)
  · exact Or.inr ⟨h1.trans h2, h1'.trans h2'⟩

theorem keyLe_antisymm {scores : List ℚ} {i j : ℕ}
    (hij : keyLe scores i j) (hji : keyLe scores j i) : i = j := by
  rcases hij with h1 | ⟨h1, h1'⟩ <;> rcases hji with h2 | ⟨h2, h2'⟩
  · exact absurd (h1.trans h2) (lt_irrefl _)
  · exact absurd h1 (h2 ▸ lt_irrefl _)
  · exact absurd h2 (h1 ▸ lt_irrefl _)
  · exact Nat.le_antisymm h1' h2'

/-- Model of `np.argsort(scores)` with stable tie-breaking: the vocabulary
    indices `0 .. V-1` sorted ascending by `(score, index)`. -/
def argsortAsc (scores : List ℚ) : List ℕ :=
  List.insertionSort (keyLe scores) (List.range scores.length)

/-- Comparison key for `np.argsort(scores[top_indices])` over `(position, id)` pairs:
    stable ascending by score, ties by position within `top_indices`. -/
def pairLe (scores : List ℚ) (a b : ℕ × ℕ) : Prop :=
  scores.getD a.2 0 < scores.getD b.2 0 ∨
    (scores.getD a.2 0 = scores.getD b.2 0 ∧ a.1 ≤ b.1)

instance (scores : List ℚ) : DecidableRel (pairLe scores) := fun a b =>
  inferInstanceAs (Decidable (_ ∨ _))

instance (scores : List ℚ) : IsTotal (ℕ × ℕ) (pairLe scores) := by
  constructor
  intro a b
  rcases lt_trichotomy (scores.getD a.2 0) (scores.getD b.2 0) with h | h | h
  · exact Or.inl (Or.inl h)
  · rcases Nat.le_total a.1 b.1 with hij | hij
    · exact Or.inl (Or.inr ⟨h, hij⟩)
    · exact Or.inr (Or.inr ⟨h.symm, hij⟩)
  · exact Or.inr (Or.inl h)

instance (scores : List ℚ) : IsTrans (ℕ × ℕ) (pairLe scores) := by
  constructor
  intro a b c hab hbc
  rcases hab with h1 | ⟨h1, h1'⟩ <;> rcases hbc with h2 | ⟨h2, h2'⟩
  · exact Or.inl (h1.trans h2)
  · exact Or.inl (h2 ▸ h1)
  · exact Or.inl (h1 ▸ h2)
  · exact Or.inr ⟨h1.trans h2, h1'.trans h2'⟩

/-- Model of line 63, `top_indices[top_indices != secret_id]`:
    the comparison is against the raw (possibly negative) `secret_id`. -/
def excludeSecret (l : List ℕ) (s : ℤ) : List ℕ :=
  l.filter (fun i => decide ((i : ℤ) ≠ s))

/-- Scores array (line 54): `scores[i] = embeddings[i] · embeddings[sIdx]`. -/
def scoresOf (E : List (List ℚ)) (sIdx : ℕ) : List ℚ :=
  E.map (fun row => dot row (E.getD sIdx []))

/-- Model of lines 77-82: reverse the ascending argsort and invert it into the
    rank array, `rank[i] = position of i in the descending order + 1`. -/
def rankOf (scores : List ℚ) : List ℕ :=
  (List.range scores.length).map (fun i => (argsortAsc scores).reverse.indexOf i + 1)

/-- Model of line 60, `np.argpartition(scores, -kp)[-kp:]`: the `kp` largest-scoring
    indices (realized as the last `kp` entries of the stable ascending argsort). -/
def topIndices (scores : List ℚ) (kp : ℕ) : List ℕ :=
  (argsortAsc scores).drop (scores.length - kp)

/-- Model of lines 69-70: sort the kept candidates by score descending
    (`np.argsort` on the sub-scores, stable over positions, then reversed). -/
def localIdsOf (scores : List ℚ) (kept : List ℕ) : List ℕ :=
  ((List.insertionSort (pairLe scores) kept.enum).map Prod.snd).reverse

/-- numpy negative-index resolution for `embeddings[secret_id]`:
    a negative in-range index selects row `V + secret_id`. -/
def sIdxOf (V : ℕ) (s : ℤ) : ℕ := (if s < 0 then s + V else s).toNat

/-- Model of lines 63-66: remove the raw secret id from the candidates,
    then truncate to `k` entries. -/
def keptOf (scores : List ℚ) (s : ℤ) (k : ℕ) : List ℕ :=
  (excludeSecret (topIndices scores (k + 1)) s).take k

/-- Result record of `compute_rankings` (the dataclass `RankingResult`). -/
structure RankingResult where
  rank : List ℕ
  local_ids : List ℕ
  local_scores : List ℚ
  secret_id : ℤ
deriving DecidableEq, Repr

/-- Errors `compute_rankings` can raise: numpy `IndexError` from
    `embeddings[secret_id]`, and numpy `ValueError` from `argpartition`
    when `kth = -(k+1)` is out of bounds. -/
inductive RankError where
  | indexOutOfRange : RankError
  | kthOutOfBounds : RankError
deriving DecidableEq, Repr

/-- Model of `compute_rankings` (src/builder/rankings.py, lines 31-89). -/
def compute_rankings (E : List (List ℚ)) (secret_id : ℤ) (k : ℕ) :
    Except RankError RankingResult :=
  let V := E.length
  if secret_id < -(V : ℤ) ∨ (V : ℤ) ≤ secret_id then
    .error .indexOutOfRange
  else
    let scores := scoresOf E (sIdxOf V secret_id)
    if V < k + 1 then
      .error .kthOutOfBounds
    else
      let localIds := localIdsOf scores (keptOf scores secret_id k)
      .ok ⟨rankOf scores, localIds, localIds.map (fun i => scores.getD i 0), secret_id⟩

/-! ### Inner-product facts (exact-arithmetic cosine geometry) -/

theorem dot_self_nonneg (u : List ℚ) : 0 ≤ dot u u := by
  induction u with
  | nil => simp [dot]
  | cons a u ih =>
    have h : dot (a :: u) (a :: u) = a * a + dot u u := by
      simp [dot]
    rw [h]
    have := mul_self_nonneg a
    linarith

theorem dot_sub_sub (u v : List ℚ) (h : u.length = v.length) :
    dot (List.zipWith (· - ·) u v) (List.zipWith (· - ·) u v) =
      dot u u + dot v v - 2 * dot u v := by
  induction u generalizing v with
  | nil =>
    cases v with
    | nil => simp [dot]
    | cons b v => simp at h
  | cons a u ih =>
    cases v with
    | nil => simp at h
    | cons b v =>
      simp only [List.length_cons, Nat.succ_inj] at h
      simp only [dot, List.zipWith_cons_cons, List.sum_cons] at *
      rw [ih v h]; ring

theorem dot_entry_zero (u : List ℚ) (h : dot u u = 0) : ∀ x ∈ u, x = 0 := by
  induction u with
  | nil => simp
  | cons a u ih =>
    simp only [dot, List.zipWith_cons_cons, List.sum_cons] at h
    have ha : 0 ≤ a * a := mul_self_nonneg a
    have hu : 0 ≤ dot u u := dot_self_nonneg u
    have ha0 : a * a = 0 := by
      have : dot u u = (List.zipWith (· * ·) u u).sum := rfl
      nlinarith [h]
    have hu0 : dot u u = 0 := by
      have : dot u u = (List.zipWith (· * ·) u u).sum := rfl
      nlinarith [h]
    intro x hx
    rcases List.mem_cons.1 hx with hx | hx
    · subst hx; exact mul_self_eq_zero.1 ha0
    · exact ih hu0 x hx

theorem eq_of_sub_entries_zero (u v : List ℚ) (h : u.length = v.length)
    (hz : ∀ x ∈ List.zipWith (· - ·) u v, x = 0) : u = v := by
  induction u generalizing v with
  | nil => cases v with
    | nil => rfl
    | cons b v => simp at h
  | cons a u ih =>
    cases v with
    | nil => simp at h
    | cons b v =>
      simp only [List.length_cons, Nat.succ_inj] at h
      simp only [List.zipWith_cons_cons, List.mem_cons] at hz
      have hab : a - b = 0 := hz _ (Or.inl rfl)
      have : u = v := ih v h (fun x hx => hz x (Or.inr hx))
      rw [this, sub_eq_zero.1 hab]

/-- For unit vectors (in the exact model), the cosine similarity with a distinct
    vector is strictly below the self-similarity 1. -/
theorem dot_lt_one_of_ne (u v : List ℚ) (h : u.length = v.length)
    (hu : dot u u = 1) (hv : dot v v = 1) (hne : u ≠ v) : dot u v < 1 := by
  have h0 : 0 ≤ dot (List.zipWith (· - ·) u v) (List.zipWith (· - ·) u v) :=
    dot_self_nonneg _
  have hid := dot_sub_sub u v h
  rcases lt_or_eq_of_le (by nlinarith : dot u v ≤ 1) with hlt | heq
  · exact hlt
  · exfalso
    apply hne
    apply eq_of_sub_entries_zero u v h
    apply dot_entry_zero
    rw [hid, hu, hv, ← heq]; ring

/-! ### Position lemmas for sorted index lists -/

theorem rel_of_indexOf_lt {α : Type} [DecidableEq α] {r : α → α → Prop} {l : List α}
    (hs : l.Pairwise r) {i j : α} (hi : i ∈ l) (hj : j ∈ l)
    (hij : l.indexOf i < l.indexOf j) : r i j := by
  have hi' : l.indexOf i < l.length := List.indexOf_lt_length.2 hi
  have hj' : l.indexOf j < l.length := List.indexOf_lt_length.2 hj
  have := List.pairwise_iff_get.1 hs ⟨_, hi'⟩ ⟨_, hj'⟩ hij
  simpa [List.get_eq_getElem, List.getElem_indexOf] using this

theorem indexOf_lt_of_keyLt {scores : List ℚ} {l : List ℕ}
    (hs : l.Pairwise (keyLe scores)) {i j : ℕ} (hi : i ∈ l) (hj : j ∈ l)
    (hij : keyLe scores i j) (hne : i ≠ j) : l.indexOf i < l.indexOf j := by
  rcases lt_trichotomy (l.indexOf i) (l.indexOf j) with h | h | h
  · exact h
  · exact absurd ((List.indexOf_inj hi hj).1 h) hne
  · exact absurd (keyLe_antisymm hij (rel_of_indexOf_lt hs hj hi h)) hne

/-- In a sorted index list, an element strictly above all others sits at the
    last position. -/
theorem indexOf_max_eq_last {scores : List ℚ} {l : List ℕ}
    (hs : l.Pairwise (keyLe scores)) (hn : l.Nodup) {s : ℕ} (hsl : s ∈ l)
    (hmax : ∀ j ∈ l, j ≠ s → keyLe scores j s ∧ ¬keyLe scores s j) :
    l.indexOf s = l.length - 1 := by
  have hs' : l.indexOf s < l.length := List.indexOf_lt_length.2 hsl
  rcases Nat.lt_or_ge (l.indexOf s) (l.length - 1) with h | h
  · exfalso
    have hlast : l.length - 1 < l.length := by omega
    set t := l[l.length - 1] with ht
    have htl : t ∈ l := List.getElem_mem hlast
    have hts : t ≠ s := by
      intro hts
      have := List.indexOf_getElem hn (l.length - 1) hlast
      rw [← ht, hts] at this
      omega
    have h1 : l.indexOf s < l.indexOf t := by
      rw [List.indexOf_getElem hn (l.length - 1) hlast]; omega
    exact (hmax t htl hts).2 (rel_of_indexOf_lt hs hsl htl h1)
  · omega

theorem indexOf_reverse_nodup {α : Type} [DecidableEq α] {l : List α}
    (hn : l.Nodup) {a : α} (ha : a ∈ l) :
    l.reverse.indexOf a = l.length - 1 - l.indexOf a := by
  have hlt : l.indexOf a < l.length := List.indexOf_lt_length.2 ha
  have hq : l.length - 1 - l.indexOf a < l.reverse.length := by
    rw [List.length_reverse]; omega
  have h1 : l.reverse[l.length - 1 - l.indexOf a] = a := by
    rw [List.getElem_reverse]
    convert List.getElem_indexOf hlt using 2
    omega
  have hn' : l.reverse.Nodup := List.nodup_reverse.2 hn
  have := List.indexOf_getElem hn' (l.length - 1 - l.indexOf a) hq
  rw [h1] at this
  exact this

/-! ### Properties of the argsort model and of the rank array -/

theorem argsortAsc_perm (scores : List ℚ) :
    (argsortAsc scores).Perm (List.range scores.length) :=
  List.perm_insertionSort _ _

theorem argsortAsc_length (scores : List ℚ) :
    (argsortAsc scores).length = scores.length := by
  rw [(argsortAsc_perm scores).length_eq, List.length_range]

theorem argsortAsc_nodup (scores : List ℚ) : (argsortAsc scores).Nodup :=
  ((argsortAsc_perm scores).symm.nodup (List.nodup_range _))

theorem mem_argsortAsc (scores : List ℚ) {i : ℕ} :
    i ∈ argsortAsc scores ↔ i < scores.length := by
  rw [(argsortAsc_perm scores).mem_iff, List.mem_range]

theorem argsortAsc_sorted (scores : List ℚ) :
    (argsortAsc scores).Pairwise (keyLe scores) :=
  List.sorted_insertionSort (keyLe scores) _

theorem rankOf_length (scores : List ℚ) : (rankOf scores).length = scores.length := by
  simp [rankOf]

theorem rankOf_getD {scores : List ℚ} {i : ℕ} (hi : i < scores.length) :
    (rankOf scores).getD i 0 = (argsortAsc scores).reverse.indexOf i + 1 := by
  unfold rankOf
  rw [List.getD_eq_getElem _ _ (by simpa using hi)]
  simp

/-- Numeric form of the rank entry: `rank[i] = V - (ascending position of i)`. -/
theorem rankOf_getD_eq {scores : List ℚ} {i : ℕ} (hi : i < scores.length) :
    (rankOf scores).getD i 0 = scores.length - (argsortAsc scores).indexOf i := by
  rw [rankOf_getD hi]
  have hmem : i ∈ argsortAsc scores := (mem_argsortAsc scores).2 hi
  rw [indexOf_reverse_nodup (argsortAsc_nodup scores) hmem]
  have h1 : (argsortAsc scores).indexOf i < (argsortAsc scores).length :=
    List.indexOf_lt_length.2 hmem
  have h2 := argsortAsc_length scores
  omega

theorem rankOf_perm (scores : List ℚ) :
    (rankOf scores).Perm ((List.range scores.length).map (· + 1)) := by
  unfold rankOf
  set od := (argsortAsc scores).reverse with hod
  have hperm : (List.range scores.length).Perm od :=
    ((argsortAsc_perm scores).symm.trans (List.reverse_perm (argsortAsc scores)).symm)
  have hnd : od.Nodup := List.nodup_reverse.2 (argsortAsc_nodup scores)
  have hself : od.map (fun a => od.indexOf a) = List.range od.length := by
    apply List.ext_getElem (by simp)
    intro n h1 h2
    simp only [List.getElem_map, List.getElem_range]
    exact List.indexOf_getElem hnd n (by simpa using h1)
  have hlen : od.length = scores.length := by
    rw [List.length_reverse, argsortAsc_length]
  have h1 : (List.range scores.length).map (fun i => od.indexOf i + 1) =
      ((List.range scores.length).map (fun a => od.indexOf a)).map (· + 1) := by
    rw [List.map_map]; rfl
  rw [h1]
  refine List.Perm.trans (List.Perm.map _ (List.Perm.map _ hperm)) ?_
  rw [hself, hlen]

/-- The rank array is a bijection onto `[1, V]`: each value occurs exactly once. -/
theorem rankOf_count {scores : List ℚ} {m : ℕ} (h1 : 1 ≤ m) (h2 : m ≤ scores.length) :
    (rankOf scores).count m = 1 := by
  rw [(rankOf_perm scores).count_eq]
  have hm : m = (m - 1) + 1 := by omega
  rw [hm]
  have h3 := List.count_map_of_injective (List.range scores.length) (fun x => x + 1)
    (fun a b hab => by simpa using hab) (m - 1)
  have h4 : List.count (m - 1) (List.range scores.length) = 1 :=
    List.count_eq_one_of_mem (List.nodup_range _) (List.mem_range.2 (by omega))
  exact h3.trans h4

/-! ### Scores -/

theorem scoresOf_length (E : List (List ℚ)) (sIdx : ℕ) :
    (scoresOf E sIdx).length = E.length := by
  simp [scoresOf]

theorem scoresOf_getD {E : List (List ℚ)} {sIdx i : ℕ} (hi : i < E.length) :
    (scoresOf E sIdx).getD i 0 = dot (E.getD i []) (E.getD sIdx []) := by
  unfold scoresOf
  rw [List.getD_eq_getElem _ _ (by simpa using hi), List.getElem_map,
    List.getD_eq_getElem _ _ hi]

theorem getD_mem_of_lt {E : List (List ℚ)} {i : ℕ} (hi : i < E.length) :
    E.getD i [] ∈ E := by
  rw [List.getD_eq_getElem _ _ hi]
  exact List.getElem_mem hi

/-! ### Unfolding `compute_rankings` on valid inputs -/

theorem sIdxOf_of_nonneg {V : ℕ} {s : ℤ} (hs : 0 ≤ s) : sIdxOf V s = s.toNat := by
  simp [sIdxOf, not_lt.2 hs]

theorem sIdxOf_of_neg {V : ℕ} {s : ℤ} (hs : s < 0) : sIdxOf V s = (s + V).toNat := by
  simp [sIdxOf, hs]

theorem compute_rankings_eq_ok (E : List (List ℚ)) (s : ℤ) (k : ℕ)
    (h1 : -(E.length : ℤ) ≤ s) (h2 : s < (E.length : ℤ)) (h3 : k + 1 ≤ E.length) :
    compute_rankings E s k =
      .ok ⟨rankOf (scoresOf E (sIdxOf E.length s)),
           localIdsOf (scoresOf E (sIdxOf E.length s))
             (keptOf (scoresOf E (sIdxOf E.length s)) s k),
           (localIdsOf (scoresOf E (sIdxOf E.length s))
             (keptOf (scoresOf E (sIdxOf E.length s)) s k)).map
               (fun i => (scoresOf E (sIdxOf E.length s)).getD i 0), s⟩ := by
  unfold compute_rankings
  rw [if_neg (by push_neg; exact ⟨by omega, by omega⟩), if_neg (by omega)]

theorem compute_rankings_eq_err_index (E : List (List ℚ)) (s : ℤ) (k : ℕ)
    (h : s < -(E.length : ℤ) ∨ (E.length : ℤ) ≤ s) :
    compute_rankings E s k = .error .indexOutOfRange := by
  unfold compute_rankings
  rw [if_pos h]

theorem compute_rankings_eq_err_kth (E : List (List ℚ)) (s : ℤ) (k : ℕ)
    (h1 : -(E.length : ℤ) ≤ s) (h2 : s < (E.length : ℤ)) (h3 : E.length < k + 1) :
    compute_rankings E s k = .error .kthOutOfBounds := by
  unfold compute_rankings
  rw [if_neg (by push_neg; exact ⟨by omega, by omega⟩), if_pos h3]

/-! ### Neighborhood extraction lemmas -/

theorem topIndices_length {scores : List ℚ} {kp : ℕ} (h : kp ≤ scores.length) :
    (topIndices scores kp).length = kp := by
  unfold topIndices
  rw [List.length_drop, argsortAsc_length]
  omega

theorem topIndices_nodup (scores : List ℚ) (kp : ℕ) : (topIndices scores kp).Nodup :=
  (argsortAsc_nodup scores).sublist (List.drop_sublist _ _)

theorem mem_topIndices_lt {scores : List ℚ} {kp a : ℕ} (ha : a ∈ topIndices scores kp) :
    a < scores.length :=
  (mem_argsortAsc scores).1 (List.mem_of_mem_drop ha)

theorem countP_cast_eq_le_one {l : List ℕ} (hn : l.Nodup) (s : ℤ) :
    List.countP (fun i : ℕ => decide ((i : ℤ) = s)) l ≤ 1 := by
  induction l with
  | nil => simp
  | cons a l ih =>
    rw [List.countP_cons]
    rcases List.nodup_cons.1 hn with ⟨hal, hl⟩
    by_cases h : (a : ℤ) = s
    · have h0 : List.countP (fun i : ℕ => decide ((i : ℤ) = s)) l = 0 := by
        rw [List.countP_eq_zero]
        intro b hb
        simp only [decide_eq_true_eq]
        intro hbs
        have hba : b = a := by omega
        exact hal (hba ▸ hb)
      simp [h, h0]
    · have h5 : decide ((a : ℤ) = s) = false := by simpa using h
      rw [h5]
      simpa using ih hl

theorem excludeSecret_length_ge {l : List ℕ} (hn : l.Nodup) (s : ℤ) :
    l.length - 1 ≤ (excludeSecret l s).length := by
  unfold excludeSecret
  have h1 := List.length_eq_countP_add_countP (fun i : ℕ => decide ((i : ℤ) ≠ s)) l
  have h2 : List.countP
        (fun a : ℕ => decide ¬(decide ((a : ℤ) ≠ s) = true)) l =
      List.countP (fun i : ℕ => decide ((i : ℤ) = s)) l := by
    apply List.countP_congr
    intro a _
    simp
  rw [h2] at h1
  have h3 := countP_cast_eq_le_one hn s
  have h4 := List.countP_eq_length_filter (fun i : ℕ => decide ((i : ℤ) ≠ s)) l
  omega

theorem mem_excludeSecret {l : List ℕ} {s : ℤ} {a : ℕ} :
    a ∈ excludeSecret l s ↔ a ∈ l ∧ (a : ℤ) ≠ s := by
  unfold excludeSecret
  rw [List.mem_filter]
  simp

theorem keptOf_length {scores : List ℚ} {s : ℤ} {k : ℕ} (h : k + 1 ≤ scores.length) :
    (keptOf scores s k).length = k := by
  unfold keptOf
  rw [List.length_take]
  have h1 := excludeSecret_length_ge (topIndices_nodup scores (k + 1)) s
  rw [topIndices_length (by omega)] at h1
  omega

theorem mem_keptOf {scores : List ℚ} {s : ℤ} {k a : ℕ} (ha : a ∈ keptOf scores s k) :
    a ∈ topIndices scores (k + 1) ∧ (a : ℤ) ≠ s := by
  unfold keptOf at ha
  exact mem_excludeSecret.1 (List.mem_of_mem_take ha)

theorem mem_localIdsOf {scores : List ℚ} {kept : List ℕ} {a : ℕ} :
    a ∈ localIdsOf scores kept ↔ a ∈ kept := by
  unfold localIdsOf
  rw [List.mem_reverse]
  have hp : ((List.insertionSort (pairLe scores) kept.enum).map Prod.snd).Perm kept := by
    have := (List.perm_insertionSort (pairLe scores) kept.enum).map Prod.snd
    rwa [List.enum_map_snd] at this
  exact hp.mem_iff

theorem localIdsOf_length (scores : List ℚ) (kept : List ℕ) :
    (localIdsOf scores kept).length = kept.length := by
  unfold localIdsOf
  rw [List.length_reverse, List.length_map,
    (List.perm_insertionSort (pairLe scores) kept.enum).length_eq, List.enum_length]

/-- The extracted neighbor scores are sorted non-increasing. -/
theorem localIdsOf_scores_sorted (scores : List ℚ) (kept : List ℕ) :
    ((localIdsOf scores kept).map (fun i => scores.getD i 0)).Pairwise (fun a b => b ≤ a) := by
  unfold localIdsOf
  rw [List.pairwise_map, List.pairwise_reverse, List.pairwise_map]
  have hsorted : (List.insertionSort (pairLe scores) kept.enum).Pairwise (pairLe scores) :=
    List.sorted_insertionSort (pairLe scores) kept.enum
  apply hsorted.imp
  intro a b hab
  rcases hab with h | ⟨h, _⟩
  · exact le_of_lt h
  · exact le_of_eq h

/-! ### Claim theorems: Ranker -/

/-- C7: for every embedding matrix, valid secret index and admissible `k`, the
returned rank array has `V` entries and every integer rank value from 1 to `V`
appears exactly once (the rank array is a bijection onto `[1, V]`). -/
theorem claim7_rank_bijection (E : List (List ℚ)) (s : ℤ) (k : ℕ)
    (hs0 : 0 ≤ s) (hsV : s < (E.length : ℤ)) (hk : k + 1 ≤ E.length) :
    ∃ r, compute_rankings E s k = .ok r ∧ r.rank.length = E.length ∧
      ∀ m, 1 ≤ m → m ≤ E.length → r.rank.count m = 1 := by
  refine ⟨_, compute_rankings_eq_ok E s k (by omega) hsV hk, ?_, ?_⟩
  · rw [rankOf_length, scoresOf_length]
  · intro m h1 h2
    exact rankOf_count h1 (by rw [scoresOf_length]; omega)

/-- Witness for C7 at `E = [[1,0],[0,1]]`, `s = 0`, `k = 1`. -/
theorem claim7_rank_bijection_witness :
    (0 : ℤ) ≤ 0 ∧ (0 : ℤ) < (([[1,0],[0,1]] : List (List ℚ)).length : ℤ) ∧
      1 + 1 ≤ ([[1,0],[0,1]] : List (List ℚ)).length ∧
      (∃ r, compute_rankings [[1,0],[0,1]] 0 1 = .ok r ∧
        r.rank.length = ([[1,0],[0,1]] : List (List ℚ)).length ∧
        ∀ m, 1 ≤ m → m ≤ ([[1,0],[0,1]] : List (List ℚ)).length → r.rank.count m = 1) :=
  ⟨by norm_num, by norm_num, by norm_num,
    claim7_rank_bijection [[1,0],[0,1]] 0 1 (by norm_num) (by norm_num) (by norm_num)⟩

/-- C1: if every row is unit-normalized, the secret index is in `[0, V)`,
`k` is admissible, and no other row equals the secret row, then the rank
array assigns rank 1 to the secret. -/
theorem claim1_rank_secret_is_one (E : List (List ℚ)) (D : ℕ) (s : ℤ) (k : ℕ)
    (hD : ∀ row ∈ E, row.length = D)
    (hnorm : ∀ row ∈ E, dot row row = 1)
    (hs0 : 0 ≤ s) (hsV : s < (E.length : ℤ)) (hk : k + 1 ≤ E.length)
    (hdup : ∀ i : ℕ, i < E.length → (i : ℤ) ≠ s → E.getD i [] ≠ E.getD s.toNat []) :
    ∃ r, compute_rankings E s k = .ok r ∧ r.rank.getD s.toNat 0 = 1 := by
  refine ⟨_, compute_rankings_eq_ok E s k (by omega) hsV hk, ?_⟩
  show (rankOf (scoresOf E (sIdxOf E.length s))).getD s.toNat 0 = 1
  rw [sIdxOf_of_nonneg hs0]
  set sN := s.toNat with hsN
  set scores := scoresOf E sN with hscores
  have hsNV : sN < E.length := by omega
  have hlen : scores.length = E.length := scoresOf_length E sN
  have hSelf : scores.getD sN 0 = 1 := by
    rw [hscores, scoresOf_getD hsNV]
    exact hnorm _ (getD_mem_of_lt hsNV)
  have hOther : ∀ j, j < E.length → j ≠ sN → scores.getD j 0 < 1 := by
    intro j hj hjne
    rw [hscores, scoresOf_getD hj]
    refine dot_lt_one_of_ne _ _ ?_ ?_ ?_ ?_
    · rw [hD _ (getD_mem_of_lt hj), hD _ (getD_mem_of_lt hsNV)]
    · exact hnorm _ (getD_mem_of_lt hj)
    · exact hnorm _ (getD_mem_of_lt hsNV)
    · exact hdup j hj (by omega)
  have hmax : ∀ j ∈ argsortAsc scores, j ≠ sN →
      keyLe scores j sN ∧ ¬keyLe scores sN j := by
    intro j hj hjne
    have hjV : j < E.length := by
      have := (mem_argsortAsc scores).1 hj
      omega
    have hlt : scores.getD j 0 < scores.getD sN 0 := by
      rw [hSelf]; exact hOther j hjV hjne
    constructor
    · exact Or.inl hlt
    · intro hc
      rcases hc with hc | ⟨hc, _⟩
      · exact absurd (hc.trans hlt) (lt_irrefl _)
      · rw [hc] at hlt; exact absurd hlt (lt_irrefl _)
  have hsmem : sN ∈ argsortAsc scores := (mem_argsortAsc scores).2 (by omega)
  have hpos := indexOf_max_eq_last (argsortAsc_sorted scores)
    (argsortAsc_nodup scores) hsmem hmax
  rw [rankOf_getD_eq (by omega), hpos, argsortAsc_length]
  omega

/-- Witness for C1 at `E = [[1,0],[0,1]]`, `s = 0`, `k = 1`. -/
theorem claim1_rank_secret_is_one_witness :
    (∀ row ∈ ([[1,0],[0,1]] : List (List ℚ)), row.length = 2) ∧
    (∀ row ∈ ([[1,0],[0,1]] : List (List ℚ)), dot row row = 1) ∧
    (0 : ℤ) ≤ 0 ∧ (0 : ℤ) < (([[1,0],[0,1]] : List (List ℚ)).length : ℤ) ∧
    1 + 1 ≤ ([[1,0],[0,1]] : List (List ℚ)).length ∧
    (∀ i : ℕ, i < ([[1,0],[0,1]] : List (List ℚ)).length → (i : ℤ) ≠ 0 →
      ([[1,0],[0,1]] : List (List ℚ)).getD i [] ≠
        ([[1,0],[0,1]] : List (List ℚ)).getD (0 : ℤ).toNat []) ∧
    (∃ r, compute_rankings [[1,0],[0,1]] 0 1 = .ok r ∧
      r.rank.getD (0 : ℤ).toNat 0 = 1) :=
  ⟨by decide, by intro row h; fin_cases h <;> norm_num [dot], by norm_num, by norm_num,
    by norm_num, by decide,
    claim1_rank_secret_is_one [[1,0],[0,1]] 2 0 1 (by decide)
      (by intro row h; fin_cases h <;> norm_num [dot]) (by norm_num) (by norm_num)
      (by norm_num) (by decide)⟩

/-- C4 counterexample: with secret row `[1]` and tied duplicate rows `[0], [0]`
at indices `1 < 2`, the tie is broken by original index descending, not
ascending: `rank[1] = 3 > rank[2] = 2`. -/
theorem claim4_counterexample :
    dot ([0] : List ℚ) ([1]) = dot ([0] : List ℚ) ([1]) ∧
    ∃ r, compute_rankings [[1],[0],[0]] 0 1 = .ok r ∧
      r.rank.getD 1 0 = 3 ∧ r.rank.getD 2 0 = 2 ∧
      ¬(r.rank.getD 1 0 < r.rank.getD 2 0) := by
  refine ⟨rfl, ⟨⟨[1,3,2], [2], [0], 0⟩, ?_, by decide, by decide, by decide⟩⟩
  rw [compute_rankings_eq_ok _ _ _ (by norm_num) (by norm_num) (by norm_num)]
  have h1 : sIdxOf ([[1],[0],[0]] : List (List ℚ)).length 0 = 0 := by decide
  rw [h1]
  have hsc : scoresOf [[1],[0],[0]] 0 = [1,0,0] := by norm_num [scoresOf, dot]
  rw [hsc]
  simp only [Except.ok.injEq]
  decide

/-- C4 amended: the full ranking sorts by score descending, but because the code
reverses an ascending argsort, equal scores are ordered by original vocabulary
index descending: for `i < j` with equal similarity to the secret,
`rank[j] < rank[i]`. -/
theorem claim4_tie_break_descending (E : List (List ℚ)) (s : ℤ) (k : ℕ)
    (hs0 : 0 ≤ s) (hsV : s < (E.length : ℤ)) (hk : k + 1 ≤ E.length)
    (i j : ℕ) (hij : i < j) (hjV : j < E.length)
    (htie : dot (E.getD i []) (E.getD s.toNat []) =
      dot (E.getD j []) (E.getD s.toNat [])) :
    ∃ r, compute_rankings E s k = .ok r ∧
      r.rank.getD j 0 < r.rank.getD i 0 := by
  refine ⟨_, compute_rankings_eq_ok E s k (by omega) hsV hk, ?_⟩
  show (rankOf (scoresOf E (sIdxOf E.length s))).getD j 0 <
    (rankOf (scoresOf E (sIdxOf E.length s))).getD i 0
  rw [sIdxOf_of_nonneg hs0]
  set scores := scoresOf E s.toNat with hscores
  have hiV : i < E.length := by omega
  have hsceq : scores.getD i 0 = scores.getD j 0 := by
    rw [hscores, scoresOf_getD hiV, scoresOf_getD hjV]
    exact htie
  have hkey : keyLe scores i j := Or.inr ⟨hsceq, Nat.le_of_lt hij⟩
  have himem : i ∈ argsortAsc scores := (mem_argsortAsc scores).2 (by
    rw [hscores, scoresOf_length]; omega)
  have hjmem : j ∈ argsortAsc scores := (mem_argsortAsc scores).2 (by
    rw [hscores, scoresOf_length]; omega)
  have hposlt := indexOf_lt_of_keyLt (argsortAsc_sorted scores) himem hjmem hkey
    (Nat.ne_of_lt hij)
  have hjlt : (argsortAsc scores).indexOf j < (argsortAsc scores).length :=
    List.indexOf_lt_length.2 hjmem
  rw [rankOf_getD_eq (by rw [hscores, scoresOf_length]; omega),
    rankOf_getD_eq (by rw [hscores, scoresOf_length]; omega)]
  rw [argsortAsc_length] at hjlt
  have hsl : scores.length = E.length := by rw [hscores, scoresOf_length]
  omega

/-- Witness for the amended C4 at `E = [[1],[0],[0]]`, `s = 0`, `k = 1`,
tied indices `i = 1 < j = 2`. -/
theorem claim4_tie_break_descending_witness :
    (0 : ℤ) ≤ 0 ∧ (0 : ℤ) < (([[1],[0],[0]] : List (List ℚ)).length : ℤ) ∧
    1 + 1 ≤ ([[1],[0],[0]] : List (List ℚ)).length ∧ 1 < 2 ∧
    2 < ([[1],[0],[0]] : List (List ℚ)).length ∧
    dot (([[1],[0],[0]] : List (List ℚ)).getD 1 [])
        (([[1],[0],[0]] : List (List ℚ)).getD (0 : ℤ).toNat []) =
      dot (([[1],[0],[0]] : List (List ℚ)).getD 2 [])
        (([[1],[0],[0]] : List (List ℚ)).getD (0 : ℤ).toNat []) ∧
    (∃ r, compute_rankings [[1],[0],[0]] 0 1 = .ok r ∧
      r.rank.getD 2 0 < r.rank.getD 1 0) :=
  ⟨by norm_num, by norm_num, by norm_num, by norm_num, by norm_num, by rfl,
    claim4_tie_break_descending [[1],[0],[0]] 0 1 (by norm_num) (by norm_num)
      (by norm_num) 1 2 (by norm_num) (by norm_num) (by rfl)⟩

/-- C2 counterexample: with `V = 1`, `secret_id = 0` and `k = 1 > V - 1`, the
call does not cap the neighbor count: it fails with the `argpartition`
kth-out-of-bounds error. -/
theorem claim2_counterexample :
    (0 : ℤ) ≤ 0 ∧ (0 : ℤ) < (([[1]] : List (List ℚ)).length : ℤ) ∧
    ([[1]] : List (List ℚ)).length - 1 < 1 ∧
    compute_rankings [[1]] 0 1 = .error .kthOutOfBounds :=
  ⟨by norm_num, by norm_num, by norm_num, by rfl⟩

/-- C2 amended: for a valid secret index, if `k ≤ V - 1` the call succeeds and
returns exactly `min k (V-1) = k` neighbors, none of which is the secret; if
`k > V - 1` the call fails with the kth-out-of-bounds error instead of capping. -/
theorem claim2_neighbor_count (E : List (List ℚ)) (s : ℤ) (k : ℕ)
    (hs0 : 0 ≤ s) (hsV : s < (E.length : ℤ)) :
    (k + 1 ≤ E.length →
      ∃ r, compute_rankings E s k = .ok r ∧
        r.local_ids.length = min k (E.length - 1) ∧ s.toNat ∉ r.local_ids) ∧
    (E.length < k + 1 → compute_rankings E s k = .error .kthOutOfBounds) := by
  constructor
  · intro hk
    refine ⟨_, compute_rankings_eq_ok E s k (by omega) hsV hk, ?_, ?_⟩
    · show (localIdsOf (scoresOf E (sIdxOf E.length s))
        (keptOf (scoresOf E (sIdxOf E.length s)) s k)).length = _
      rw [localIdsOf_length, keptOf_length (by rw [scoresOf_length]; omega)]
      omega
    · intro hmem
      have h4 := mem_localIdsOf.1 hmem
      have h5 := (mem_keptOf h4).2
      omega
  · intro hk
    exact compute_rankings_eq_err_kth E s k (by omega) (by omega) hk

/-- Witness for the amended C2 at `E = [[1,0],[0,1]]`, `s = 0`. -/
theorem claim2_neighbor_count_witness :
    (0 : ℤ) ≤ 0 ∧ (0 : ℤ) < (([[1,0],[0,1]] : List (List ℚ)).length : ℤ) ∧
    ((1 + 1 ≤ ([[1,0],[0,1]] : List (List ℚ)).length →
      ∃ r, compute_rankings [[1,0],[0,1]] 0 1 = .ok r ∧
        r.local_ids.length = min 1 (([[1,0],[0,1]] : List (List ℚ)).length - 1) ∧
        (0 : ℤ).toNat ∉ r.local_ids) ∧
     (([[1,0],[0,1]] : List (List ℚ)).length < 1 + 1 →
      compute_rankings [[1,0],[0,1]] 0 1 = .error .kthOutOfBounds)) :=
  ⟨by norm_num, by norm_num,
    claim2_neighbor_count [[1,0],[0,1]] 0 1 (by norm_num) (by norm_num)⟩

/-- C5 amended: `compute_rankings` raises `IndexOutOfRange` exactly when the
secret index falls outside numpy's accepted window `[-V, V)`; negative indices
in `[-V, -1]` are accepted (they wrap), contrary to the claimed `[0, V)`. -/
theorem claim5_oob_iff (E : List (List ℚ)) (s : ℤ) (k : ℕ) :
    compute_rankings E s k = .error .indexOutOfRange ↔
      s < -(E.length : ℤ) ∨ (E.length : ℤ) ≤ s := by
  constructor
  · intro h
    by_contra hc
    push_neg at hc
    rcases Nat.lt_or_ge E.length (k + 1) with hk | hk
    · rw [compute_rankings_eq_err_kth E s k (by omega) (by omega) hk] at h
      injection h with h'
      exact RankError.noConfusion h'
    · rw [compute_rankings_eq_ok E s k (by omega) (by omega) hk] at h
      exact Except.noConfusion h
  · intro h
    exact compute_rankings_eq_err_index E s k h

/-- C5 counterexample: `secret_id = -1` is outside `[0, V)` for `V = 1`, yet the
call succeeds (numpy wraps negative indices) instead of raising. -/
theorem claim5_counterexample :
    ¬((0 : ℤ) ≤ -1) ∧ compute_rankings [[1]] (-1) 0 = .ok ⟨[1], [], [], -1⟩ :=
  ⟨by norm_num, by rfl⟩

/-- C9: for a valid secret and admissible `k`, the returned neighbor scores are
sorted non-increasing and each equals the dot product (cosine similarity) of the
corresponding neighbor row with the secret row. -/
theorem claim9_neighbor_scores (E : List (List ℚ)) (s : ℤ) (k : ℕ)
    (hs0 : 0 ≤ s) (hsV : s < (E.length : ℤ)) (hk : k + 1 ≤ E.length) :
    ∃ r, compute_rankings E s k = .ok r ∧
      r.local_scores.Pairwise (fun a b => b ≤ a) ∧
      r.local_scores.length = r.local_ids.length ∧
      ∀ p, p < r.local_ids.length →
        r.local_scores.getD p 0 =
          dot (E.getD (r.local_ids.getD p 0) []) (E.getD s.toNat []) := by
  refine ⟨_, compute_rankings_eq_ok E s k (by omega) hsV hk, ?_, ?_, ?_⟩
  · exact localIdsOf_scores_sorted _ _
  · simp
  · intro p hp
    set scores := scoresOf E (sIdxOf E.length s) with hsc
    set lids := localIdsOf scores (keptOf scores s k) with hlids
    have hp' : p < lids.length := hp
    show (lids.map (fun i => scores.getD i 0)).getD p 0 =
      dot (E.getD (lids.getD p 0) []) (E.getD s.toNat [])
    rw [List.getD_eq_getElem _ _ (by simpa using hp'), List.getElem_map,
      List.getD_eq_getElem lids _ hp']
    have hmem : lids[p] ∈ lids := List.getElem_mem hp'
    have hkept := mem_localIdsOf.1 hmem
    have htop := (mem_keptOf hkept).1
    have hlt : lids[p] < E.length := by
      have := mem_topIndices_lt htop
      rwa [hsc, scoresOf_length] at this
    rw [hsc, scoresOf_getD hlt, sIdxOf_of_nonneg hs0]

/-- Witness for C9 at `E = [[1,0],[0,1]]`, `s = 0`, `k = 1`. -/
theorem claim9_neighbor_scores_witness :
    (0 : ℤ) ≤ 0 ∧ (0 : ℤ) < (([[1,0],[0,1]] : List (List ℚ)).length : ℤ) ∧
    1 + 1 ≤ ([[1,0],[0,1]] : List (List ℚ)).length ∧
    (∃ r, compute_rankings [[1,0],[0,1]] 0 1 = .ok r ∧
      r.local_scores.Pairwise (fun a b => b ≤ a) ∧
      r.local_scores.length = r.local_ids.length ∧
      ∀ p, p < r.local_ids.length →
        r.local_scores.getD p 0 =
          dot (([[1,0],[0,1]] : List (List ℚ)).getD (r.local_ids.getD p 0) [])
            (([[1,0],[0,1]] : List (List ℚ)).getD (0 : ℤ).toNat [])) :=
  ⟨by norm_num, by norm_num, by norm_num,
    claim9_neighbor_scores [[1,0],[0,1]] 0 1 (by norm_num) (by norm_num) (by norm_num)⟩

/-- C10: a negative secret index in `[-V, -1]` is accepted; the rank array is
identical to the one computed for `V + secret_id`; and the secret-exclusion
filter compares candidate indices against the raw negative value, so it removes
nothing — concretely, at `E = [[3],[1],[2]]`, `secret_id = -1`, `k = 1` the
secret's own row (vocabulary index 2) appears in the neighbor list. -/
theorem claim10_negative_secret (E : List (List ℚ)) (s : ℤ) (k : ℕ)
    (h1 : -(E.length : ℤ) ≤ s) (h2 : s < 0) (h3 : k + 1 ≤ E.length) :
    (∃ r r', compute_rankings E s k = .ok r ∧
        compute_rankings E (s + E.length) k = .ok r' ∧ r.rank = r'.rank) ∧
    (∀ l : List ℕ, excludeSecret l s = l) ∧
    (∃ r2, compute_rankings [[3],[1],[2]] (-1) 1 = .ok r2 ∧
      (2 : ℕ) ∈ r2.local_ids ∧ r2.local_ids = [2]) := by
  refine ⟨⟨_, _, compute_rankings_eq_ok E s k h1 (by omega) h3,
      compute_rankings_eq_ok E (s + E.length) k (by omega) (by omega) h3, ?_⟩, ?_, ?_⟩
  · show rankOf (scoresOf E (sIdxOf E.length s)) =
      rankOf (scoresOf E (sIdxOf E.length (s + E.length)))
    rw [sIdxOf_of_neg h2, sIdxOf_of_nonneg (by omega)]
  · intro l
    unfold excludeSecret
    rw [List.filter_eq_self]
    intro a _
    simp only [decide_eq_true_eq]
    omega
  · refine ⟨⟨[1,3,2], [2], [4], -1⟩, ?_, by decide, by decide⟩
    rw [compute_rankings_eq_ok _ _ _ (by norm_num) (by norm_num) (by norm_num)]
    have hs2 : sIdxOf ([[3],[1],[2]] : List (List ℚ)).length (-1) = 2 := by decide
    rw [hs2]
    have hsc3 : scoresOf [[3],[1],[2]] 2 = [6,2,4] := by norm_num [scoresOf, dot]
    rw [hsc3]
    simp only [Except.ok.injEq]
    decide

/-- Witness for C10 at `E = [[1],[1]]`, `s = -1`, `k = 0`. -/
theorem claim10_negative_secret_witness :
    -(([[1],[1]] : List (List ℚ)).length : ℤ) ≤ -1 ∧ (-1 : ℤ) < 0 ∧
    0 + 1 ≤ ([[1],[1]] : List (List ℚ)).length ∧
    ((∃ r r', compute_rankings [[1],[1]] (-1) 0 = .ok r ∧
        compute_rankings [[1],[1]] (-1 + ([[1],[1]] : List (List ℚ)).length) 0 = .ok r' ∧
        r.rank = r'.rank) ∧
     (∀ l : List ℕ, excludeSecret l (-1) = l) ∧
     (∃ r2, compute_rankings [[3],[1],[2]] (-1) 1 = .ok r2 ∧
        (2 : ℕ) ∈ r2.local_ids ∧ r2.local_ids = [2])) :=
  ⟨by norm_num, by norm_num, by norm_num,
    claim10_negative_secret [[1],[1]] (-1) 0 (by norm_num) (by norm_num) (by norm_num)⟩

/-! ### Projector model (src/builder/projection.py, lines 29-79)

`np.linalg.svd(centered, full_matrices=False)` on the `k × D` centered block
gives `U` of shape `(k, min(k, D))`, so `coords = U[:, :3] * S[:3]` (line 47)
has `m = min(k, D, 3)` columns, not always 3. The stabilization (lines 51-77)
is embedded as a function of that post-SVD block (the SVD values themselves
are abstracted as the input, universally quantified in the theorems), with the
column count `m` explicit. Error paths: `k = 0` raises `ValueError` at the
empty `norms.max()` reduction (line 57); `m < 3` raises `IndexError` at
`anchor[j]` in the flip loop (line 67, at `j = m`), so the call produces no
output (the partial in-place flips before the raise act on a local array and
are unobservable). `m > 3` cannot arise from line 47 and is mapped to the
error branch as unreachable. numpy float arithmetic is modelled exactly
over `ℝ`. -/

noncomputable section Projector

/-- Column count of the post-SVD block (line 47): `U[:, :3] * S[:3]` has
`min(k, D, 3)` columns because `U` has shape `(k, min(k, D))`. -/
def svdCols (k D : ℕ) : ℕ := min (min k D) 3

/-- Squared Euclidean norm of one 3D coordinate row. -/
def sqNorm3 (p : Fin 3 → ℝ) : ℝ := ∑ j, (p j) ^ 2

/-- Model of lines 52-53: recenter the coordinate block at its centroid. -/
def centerCoords {k : ℕ} (c : Fin k → Fin 3 → ℝ) : Fin k → Fin 3 → ℝ :=
  fun i j => c i j - (∑ i', c i' j) / (k : ℝ)

/-- Model of lines 56-57, `np.linalg.norm(coords, axis=1).max()`: the
maximum row norm, defined only for a nonempty block (numpy raises a
`ValueError` on the empty reduction when `k = 0`). -/
noncomputable def maxNorm {k : ℕ} (h : 0 < k) (c : Fin k → Fin 3 → ℝ) : ℝ :=
  Finset.univ.sup' ⟨⟨0, h⟩, Finset.mem_univ _⟩ (fun i => Real.sqrt (sqNorm3 (c i)))

/-- Sum of one coordinate column. -/
def colSum {k : ℕ} (c : Fin k → Fin 3 → ℝ) (j : Fin 3) : ℝ := ∑ i, c i j

/-- numpy's in-place `coords[:, j] *= -1`: negate one axis. -/
def negAxis {k : ℕ} (j : Fin 3) (c : Fin k → Fin 3 → ℝ) : Fin k → Fin 3 → ℝ :=
  fun i j' => if j' = j then -c i j' else c i j'

/-- Model of lines 63-68 in the only case where the loop completes: a block
with exactly 3 columns (blocks with fewer columns raise `IndexError` at
`anchor[j]`, handled in `projectStabilize`). Flip each axis whose anchor
(row 0) coordinate is negative. Although the loop mutates `coords` in place
and `anchor` is a view of row 0, flipping column `j` only changes the anchor
entry the loop has already tested, so the three iterations act independently
on the columns. -/
noncomputable def flipByAnchor {k : ℕ} (h : 0 < k) (c : Fin k → Fin 3 → ℝ) :
    Fin k → Fin 3 → ℝ :=
  fun i j => if c ⟨0, h⟩ j < 0 then -c i j else c i j

/-- Model of lines 72-77: scan the axes in order; at the first axis whose
column-sum magnitude exceeds 1e-8, flip it when the sum is negative, then
stop (the loop breaks whether or not it flipped). -/
noncomputable def secondaryFix {k : ℕ} (c : Fin k → Fin 3 → ℝ) : Fin k → Fin 3 → ℝ :=
  if 1e-8 < |colSum c 0| then (if colSum c 0 < 0 then negAxis 0 c else c)
  else if 1e-8 < |colSum c 1| then (if colSum c 1 < 0 then negAxis 1 c else c)
  else if 1e-8 < |colSum c 2| then (if colSum c 2 < 0 then negAxis 2 c else c)
  else c

/-- Model of `project_to_3d` on the post-SVD block of `k` rows and `m` columns
(lines 51-79): recenter, scale by the maximum row norm unless it is below the
1e-8 floor, then apply the two sign-stabilization passes. `none` models the
errors the source raises before returning: the `ValueError` at the empty
`norms.max()` reduction when `k = 0` (line 57), and the `IndexError` at
`anchor[j]` in the flip loop when the block has `m < 3` columns (line 67);
`m > 3` cannot arise from line 47 (`svdCols k D ≤ 3`) and is likewise mapped
to the error branch. The centering/scaling the source performs before an
`IndexError` mutates only a local array and is unobservable. -/
noncomputable def projectStabilize (k m : ℕ) (c : Fin k → Fin m → ℝ) :
    Option (Fin k → Fin m → ℝ) :=
  if h : 0 < k then
    match m, c with
    | 3, c =>
      some (secondaryFix (flipByAnchor h
        (if 1e-8 < maxNorm h (centerCoords c)
         then (fun i j => centerCoords c i j / maxNorm h (centerCoords c))
         else centerCoords c)))
    | _, _ => none
  else none

/-! ### Projector lemmas -/

theorem projectStabilize_three {k : ℕ} (h : 0 < k) (c : Fin k → Fin 3 → ℝ) :
    projectStabilize k 3 c =
      some (secondaryFix (flipByAnchor h
        (if 1e-8 < maxNorm h (centerCoords c)
         then (fun i j => centerCoords c i j / maxNorm h (centerCoords c))
         else centerCoords c))) := by
  unfold projectStabilize
  rw [dif_pos h]

theorem projectStabilize_lt_three {k m : ℕ} (hm : m < 3) (c : Fin k → Fin m → ℝ) :
    projectStabilize k m c = none := by
  unfold projectStabilize
  by_cases h : 0 < k
  · rw [dif_pos h]
    interval_cases m <;> rfl
  · rw [dif_neg h]

theorem projectStabilize_zero {m : ℕ} (c : Fin 0 → Fin m → ℝ) :
    projectStabilize 0 m c = none := by
  unfold projectStabilize
  rw [dif_neg (by omega)]

theorem colSum_centerCoords {k : ℕ} (hk : 0 < k) (c : Fin k → Fin 3 → ℝ)
    (j : Fin 3) : colSum (centerCoords c) j = 0 := by
  unfold colSum centerCoords
  rw [Finset.sum_sub_distrib, Finset.sum_const, Finset.card_univ, Fintype.card_fin]
  have hkR : (k : ℝ) ≠ 0 := Nat.cast_ne_zero.2 (by omega)
  field_simp

theorem colSum_div {k : ℕ} (c : Fin k → Fin 3 → ℝ) (M : ℝ) (j : Fin 3) :
    colSum (fun i j' => c i j' / M) j = colSum c j / M := by
  unfold colSum
  rw [Finset.sum_div]

theorem colSum_flipByAnchor {k : ℕ} (h : 0 < k) (c : Fin k → Fin 3 → ℝ)
    (j : Fin 3) (hc : colSum c j = 0) : colSum (flipByAnchor h c) j = 0 := by
  unfold colSum flipByAnchor
  unfold colSum at hc
  by_cases hj : c ⟨0, h⟩ j < 0
  · simp only [hj, if_true]
    rw [Finset.sum_neg_distrib, hc, neg_zero]
  · simp only [hj, if_false]
    exact hc

theorem secondaryFix_of_colSum_zero {k : ℕ} (c : Fin k → Fin 3 → ℝ)
    (hc : ∀ j, colSum c j = 0) : secondaryFix c = c := by
  unfold secondaryFix
  rw [hc 0, hc 1, hc 2]
  norm_num

theorem sqNorm3_nonneg (p : Fin 3 → ℝ) : 0 ≤ sqNorm3 p :=
  Finset.sum_nonneg (fun j _ => sq_nonneg (p j))

theorem sqNorm3_flipByAnchor {k : ℕ} (h : 0 < k) (c : Fin k → Fin 3 → ℝ)
    (i : Fin k) : sqNorm3 (flipByAnchor h c i) = sqNorm3 (c i) := by
  unfold sqNorm3 flipByAnchor
  apply Finset.sum_congr rfl
  intro j _
  by_cases hj : c ⟨0, h⟩ j < 0
  · simp [hj, neg_sq]
  · simp [hj]

theorem maxNorm_flipByAnchor {k : ℕ} (h : 0 < k) (c : Fin k → Fin 3 → ℝ) :
    maxNorm h (flipByAnchor h c) = maxNorm h c := by
  unfold maxNorm
  congr 1
  funext i
  rw [sqNorm3_flipByAnchor h c i]

theorem maxNorm_nonneg {k : ℕ} (h : 0 < k) (c : Fin k → Fin 3 → ℝ) :
    0 ≤ maxNorm h c := by
  unfold maxNorm
  refine le_trans (Real.sqrt_nonneg (sqNorm3 (c ⟨0, h⟩))) ?_
  exact Finset.le_sup' (fun i => Real.sqrt (sqNorm3 (c i)))
    (Finset.mem_univ (⟨0, h⟩ : Fin k))

theorem sqNorm3_div {k : ℕ} (c : Fin k → Fin 3 → ℝ) (M : ℝ) (i : Fin k) :
    sqNorm3 (fun j => c i j / M) = sqNorm3 (c i) / M ^ 2 := by
  unfold sqNorm3
  rw [Finset.sum_div]
  apply Finset.sum_congr rfl
  intro j _
  rw [div_pow]

/-- Scaling every coordinate by a positive constant divides the maximum row
norm by that constant. -/
theorem maxNorm_div {k : ℕ} (h : 0 < k) (c : Fin k → Fin 3 → ℝ) (M : ℝ) (hM : 0 < M) :
    maxNorm h (fun i j => c i j / M) = maxNorm h c / M := by
  unfold maxNorm
  have hfun : (fun i => Real.sqrt (sqNorm3 (fun j => c i j / M))) =
      ((fun x => x / M) ∘ (fun i => Real.sqrt (sqNorm3 (c i)))) := by
    funext i
    show Real.sqrt (sqNorm3 (fun j => c i j / M)) = Real.sqrt (sqNorm3 (c i)) / M
    rw [sqNorm3_div, Real.sqrt_div (sqNorm3_nonneg (c i)), Real.sqrt_sq hM.le]
  rw [hfun]
  exact (Finset.comp_sup'_eq_sup'_comp ⟨⟨0, h⟩, Finset.mem_univ _⟩ (fun x => x / M)
    (fun x y => (max_div_div_right hM.le x y).symm)).symm

/-- Scaling a nonempty block by its own positive maximum norm yields maximum
norm exactly 1 (exact arithmetic). -/
theorem maxNorm_scaled {k : ℕ} (h : 0 < k) (c : Fin k → Fin 3 → ℝ)
    (hM : 0 < maxNorm h c) :
    maxNorm h (fun i j => c i j / maxNorm h c) = 1 := by
  rw [maxNorm_div h c _ hM]
  exact div_self (ne_of_gt hM)

/-- After centering (and optional scaling and anchor flips), every column sums
to zero, so the secondary stabilization pass never fires (exact arithmetic). -/
theorem pipeline_colSum_zero {k : ℕ} (h : 0 < k) (c : Fin k → Fin 3 → ℝ) :
    ∀ j, colSum (flipByAnchor h
      (if 1e-8 < maxNorm h (centerCoords c)
       then (fun i j => centerCoords c i j / maxNorm h (centerCoords c))
       else centerCoords c)) j = 0 := by
  intro j
  apply colSum_flipByAnchor
  by_cases hM : 1e-8 < maxNorm h (centerCoords c)
  · rw [if_pos hM, colSum_div, colSum_centerCoords h, zero_div]
  · rw [if_neg hM]
    exact colSum_centerCoords h c j

theorem flipByAnchor_anchor_nonneg {k : ℕ} (h : 0 < k) (c : Fin k → Fin 3 → ℝ)
    (j : Fin 3) : 0 ≤ flipByAnchor h c ⟨0, h⟩ j := by
  unfold flipByAnchor
  split_ifs with hj
  · linarith
  · linarith [not_lt.1 hj]

/-! ### Claim theorems: Projector -/

/-- C3 counterexample: a non-empty neighbor list with `k = 1` (so the post-SVD
block has `svdCols 1 D = 1 < 3` columns, for example `D = 50`) makes
`project_to_3d` raise `IndexError` at `anchor[1]` (line 67), so there is no
stabilized output at all — the anchor cannot have coordinates on 3 axes. -/
theorem claim3_counterexample :
    0 < 1 ∧ svdCols 1 50 = 1 ∧
    projectStabilize 1 (svdCols 1 50) (fun _ _ => (0 : ℝ)) = none :=
  ⟨Nat.one_pos, by norm_num [svdCols],
    projectStabilize_lt_three (by norm_num [svdCols]) _⟩

/-- C3 amended: when the post-SVD block has the full 3 columns (which per line
47 happens exactly when `min(k, D) ≥ 3`), the stabilized anchor point has a
nonnegative (possibly exactly 0) coordinate on each of the 3 axes; for a
non-empty block with fewer than 3 columns, `project_to_3d` raises `IndexError`
in the anchor-flip loop and produces no output. -/
theorem claim3_anchor_nonneg_three_cols (k : ℕ) (c : Fin k → Fin 3 → ℝ)
    (h : 0 < k) :
    (∃ out, projectStabilize k 3 c = some out ∧ ∀ j : Fin 3, 0 ≤ out ⟨0, h⟩ j) ∧
    (∀ m, m < 3 → ∀ c' : Fin k → Fin m → ℝ, projectStabilize k m c' = none) := by
  refine ⟨⟨_, projectStabilize_three h c, ?_⟩,
    fun m hm c' => projectStabilize_lt_three hm c'⟩
  rw [secondaryFix_of_colSum_zero _ (pipeline_colSum_zero h c)]
  intro j
  exact flipByAnchor_anchor_nonneg h _ j

/-- Witness for the amended C3 at `k = 3` and the all-zero 3-column block. -/
theorem claim3_anchor_nonneg_three_cols_witness :
    0 < 3 ∧
    ((∃ out, projectStabilize 3 3 (fun _ _ => (0 : ℝ)) = some out ∧
        ∀ j : Fin 3, 0 ≤ out ⟨0, by norm_num⟩ j) ∧
     (∀ m, m < 3 → ∀ c' : Fin 3 → Fin m → ℝ, projectStabilize 3 m c' = none)) :=
  ⟨by norm_num, claim3_anchor_nonneg_three_cols 3 (fun _ _ => (0 : ℝ)) (by norm_num)⟩

/-- C8 counterexample: a non-empty neighbor list with `k = 2` (so the post-SVD
block has `svdCols 2 D = 2 < 3` columns, for example `D = 50`) makes
`project_to_3d` raise `IndexError` at `anchor[2]` (line 67), so no output
exists whose maximum norm could satisfy the claimed bound. -/
theorem claim8_counterexample :
    0 < 2 ∧ svdCols 2 50 = 2 ∧
    projectStabilize 2 (svdCols 2 50) (fun _ _ => (0 : ℝ)) = none :=
  ⟨by norm_num, by norm_num [svdCols],
    projectStabilize_lt_three (by norm_num [svdCols]) _⟩

/-- C8 amended: when the post-SVD block has the full 3 columns (per line 47,
exactly when `min(k, D) ≥ 3`), the stabilized output has maximum Euclidean row
norm at most `1 + 1e-6`; it equals 1 exactly when the pre-scaling maximum norm
exceeds the `1e-8` floor, and otherwise scaling is skipped and the maximum norm
is the (tiny) pre-scaling one. For a non-empty block with fewer than 3 columns,
`project_to_3d` raises `IndexError` and produces no output. -/
theorem claim8_max_norm_three_cols (k : ℕ) (c : Fin k → Fin 3 → ℝ) (h : 0 < k) :
    (∃ out, projectStabilize k 3 c = some out ∧
      maxNorm h out ≤ 1 + 1e-6 ∧
      (1e-8 < maxNorm h (centerCoords c) → maxNorm h out = 1) ∧
      (maxNorm h (centerCoords c) ≤ 1e-8 →
        maxNorm h out = maxNorm h (centerCoords c))) ∧
    (∀ m, m < 3 → ∀ c' : Fin k → Fin m → ℝ, projectStabilize k m c' = none) := by
  refine ⟨⟨_, projectStabilize_three h c, ?_⟩,
    fun m hm c' => projectStabilize_lt_three hm c'⟩
  rw [secondaryFix_of_colSum_zero _ (pipeline_colSum_zero h c), maxNorm_flipByAnchor]
  by_cases hM : 1e-8 < maxNorm h (centerCoords c)
  · rw [if_pos hM]
    have h1 : maxNorm h
        (fun i j => centerCoords c i j / maxNorm h (centerCoords c)) = 1 :=
      maxNorm_scaled h _ (lt_trans (by norm_num) hM)
    exact ⟨by rw [h1]; norm_num, fun _ => h1, fun hc => absurd hM (not_lt.2 hc)⟩
  · rw [if_neg hM]
    push_neg at hM
    exact ⟨le_trans hM (by norm_num), fun hc => absurd hc (not_lt.2 hM), fun _ => rfl⟩

/-- Witness for the amended C8 at `k = 3` and the all-zero 3-column block. -/
theorem claim8_max_norm_three_cols_witness :
    0 < 3 ∧
    ((∃ out, projectStabilize 3 3 (fun _ _ => (0 : ℝ)) = some out ∧
        maxNorm (by norm_num : 0 < 3) out ≤ 1 + 1e-6 ∧
        (1e-8 < maxNorm (by norm_num : 0 < 3) (centerCoords (fun _ _ => (0 : ℝ))) →
          maxNorm (by norm_num : 0 < 3) out = 1) ∧
        (maxNorm (by norm_num : 0 < 3) (centerCoords (fun _ _ => (0 : ℝ))) ≤ 1e-8 →
          maxNorm (by norm_num : 0 < 3) out =
            maxNorm (by norm_num : 0 < 3) (centerCoords (fun _ _ => (0 : ℝ))))) ∧
     (∀ m, m < 3 → ∀ c' : Fin 3 → Fin m → ℝ, projectStabilize 3 m c' = none)) :=
  ⟨by norm_num, claim8_max_norm_three_cols 3 (fun _ _ => (0 : ℝ)) (by norm_num)⟩

/-- C6 counterexample: with `k = 0` the ranker does return an empty neighbor
list, but the projector does not return an empty coordinate set without error —
it fails on the empty `norms.max()` reduction (modelled as `none`). -/
theorem claim6_counterexample :
    (∃ r, compute_rankings [[1]] 0 0 = .ok r ∧ r.local_ids = []) ∧
    projectStabilize 0 3 (fun _ _ => (0 : ℝ)) = none := by
  refine ⟨⟨⟨[1], [], [], 0⟩, by rfl, by rfl⟩, ?_⟩
  exact projectStabilize_zero _

/-- C6 amended: with `k = 0`, `compute_rankings` returns an empty neighbor list
and empty neighbor scores without error, but `project_to_3d` on an empty
neighbor list fails (zero-size `max()` reduction) rather than returning an
empty coordinate set. -/
theorem claim6_k_zero (E : List (List ℚ)) (s : ℤ)
    (hs0 : 0 ≤ s) (hsV : s < (E.length : ℤ)) :
    (∃ r, compute_rankings E s 0 = .ok r ∧ r.local_ids = [] ∧ r.local_scores = []) ∧
    (∀ c : Fin 0 → Fin 3 → ℝ, projectStabilize 0 3 c = none) := by
  constructor
  · have hV : 0 + 1 ≤ E.length := by omega
    refine ⟨_, compute_rankings_eq_ok E s 0 (by omega) hsV hV, ?_, ?_⟩
    · show localIdsOf (scoresOf E (sIdxOf E.length s))
        (keptOf (scoresOf E (sIdxOf E.length s)) s 0) = []
      unfold keptOf
      rw [List.take_zero]
      rfl
    · show (localIdsOf (scoresOf E (sIdxOf E.length s))
        (keptOf (scoresOf E (sIdxOf E.length s)) s 0)).map
          (fun i => (scoresOf E (sIdxOf E.length s)).getD i 0) = []
      unfold keptOf
      rw [List.take_zero]
      rfl
  · intro c
    exact projectStabilize_zero c

/-- Witness for the amended C6 at `E = [[1]]`, `s = 0`. -/
theorem claim6_k_zero_witness :
    (0 : ℤ) ≤ 0 ∧ (0 : ℤ) < (([[1]] : List (List ℚ)).length : ℤ) ∧
    ((∃ r, compute_rankings [[1]] 0 0 = .ok r ∧
        r.local_ids = [] ∧ r.local_scores = []) ∧
     (∀ c : Fin 0 → Fin 3 → ℝ, projectStabilize 0 3 c = none)) :=
  ⟨by norm_num, by norm_num, claim6_k_zero [[1]] 0 (by norm_num) (by norm_num)⟩

end Projector

end Embeddage
